import Mathlib

/-!
Verification development for the Inviwo processor-network and property-ownership
core.  Each namespace shallowly embeds one cluster of source functions:

* Topo      — src/core/network/networkutils.cpp, util::topologicalSort and
              util::topologicalSortFiltered (lines 94-127), on top of the
              traverseNetwork depth-first traversal.
* POwner    — src/core/properties/propertyowner.cpp, PropertyOwner insertProperty,
              addProperty, invalidate, setValid and the copy constructor.
* PartialNet — src/core/network/networkutils.cpp,
              detail::PartialProcessorNetwork::serialize, the loop that splits
              connections into internal and external ones (lines 284-296).
* Repl      — src/core/network/networkutils.cpp, util::replaceProcessor
              (property copying and identifier transfer, lines 527-534, 567).
* SplitConn — src/core/network/networkutils.cpp, util::addProcessorOnConnection
              (lines 417-440).
* ModMgr    — src/core/common/modulemanager.cpp, ModuleManager::reloadModules
              (lines 188-276).

Machine pointers are modelled by Nat identities, C++ std::vector by List, and
throwing functions by Except.  Side containers that in C++ hold pointers to the
same objects store the value the shared object has at insertion time; the list
named properties is the canonical state of the contained properties.
-/

namespace Topo

/-- A port-level connection of the processor network.  outProc/outPort is the
upstream end (an Outport), inProc/inPort the downstream end (an Inport).
The active flag models Processor::isConnectionActive for this connection. -/
structure Connection where
  outProc : Nat
  outPort : Nat
  inProc : Nat
  inPort : Nat
  active : Bool
deriving DecidableEq, Repr

/-- The processor network data that topologicalSort reads: the processors (by
identity, in getProcessors order), the connection set, and which processors
report isSink. -/
structure Network where
  processors : List Nat
  connections : List Connection
  sinks : List Nat
deriving DecidableEq, Repr

/-- The predicate passed by topologicalSortFiltered:
p->isConnectionActive(from, to). -/
def isConnectionActive (c : Connection) : Bool := c.active

/-- The predicate used by the unfiltered topologicalSort: every connection is
followed. -/
def allConnections (_ : Connection) : Bool := true

/-- The upstream neighbor processors of processor p reached through connections
allowed by filt.  Mirrors the traversal step: for each inport of p, for each
connected outport passing the filter, the processor of that outport.  (The C++
iterates inports then their connected outports; this iterates the connection
list, which enumerates the same (inport, outport) pairs.) -/
def upstreamVia (net : Network) (filt : Connection → Bool) (p : Nat) : List Nat :=
  (net.connections.filter (fun c => c.inProc == p && filt c)).map (fun c => c.outProc)

/-- Modelled from the spec: traverseNetwork (declared in
inviwo/core/network/networkutils.h, not part of the sources) performs a
post-order depth-first traversal following inports to connected outports to
their processor, visiting each processor once via a visited set, following only
connections allowed by the filter predicate.  The state is the pair
(visited processors, post-order output so far); fuel bounds the recursion
depth and is chosen large enough by the callers below. -/
def traverseUp (net : Network) (filt : Connection → Bool) :
    Nat → Nat → List Nat × List Nat → List Nat × List Nat
  | 0, _, st => st
  | fuel + 1, p, st =>
    if p ∈ st.1 then st
    else
      let st1 := (upstreamVia net filt p).foldl
        (fun s q => traverseUp net filt fuel q s) (p :: st.1, st.2)
      (st1.1, st1.2 ++ [p])

/-- The loop over the start processors: run the upward traversal from each
root with the shared state. -/
def sortRun (net : Network) (filt : Connection → Bool) (roots : List Nat)
    (st : List Nat × List Nat) : List Nat × List Nat :=
  roots.foldl (fun st p => traverseUp net filt (net.processors.length + 1) p st) st

/-- Shared body of util::topologicalSort and util::topologicalSortFiltered:
collect the sink processors with copy_if, then run the post-order upward
traversal from each sink with a shared visited set, accumulating the order. -/
def topoSortWith (net : Network) (filt : Connection → Bool) : List Nat :=
  (sortRun net filt (net.processors.filter (fun p => net.sinks.contains p))
    ([], [])).2

/-- util::topologicalSort (networkutils.cpp lines 94-108): traverses every
connection, no filter. -/
def topologicalSort (net : Network) : List Nat := topoSortWith net allConnections

/-- util::topologicalSortFiltered (networkutils.cpp lines 110-127): traverses
only connections for which isConnectionActive holds. -/
def topologicalSortFiltered (net : Network) : List Nat :=
  topoSortWith net isConnectionActive

/-- q is a direct upstream neighbor of p through a connection allowed by
filt. -/
def edgeRel (net : Network) (filt : Connection → Bool) (q p : Nat) : Prop :=
  q ∈ upstreamVia net filt p

/-- q is strictly transitively upstream of p through connections allowed by
filt. -/
def Upstream (net : Network) (filt : Connection → Bool) : Nat → Nat → Prop :=
  Relation.TransGen (edgeRel net filt)

/-- Some processor s is reachable downstream from p (in zero or more hops)
through connections allowed by filt. -/
def ReachDown (net : Network) (filt : Connection → Bool) : Nat → Nat → Prop :=
  Relation.ReflTransGen (edgeRel net filt)

/-- The subgraph of connections allowed by filt has no directed cycle. -/
def Acyclic (net : Network) (filt : Connection → Bool) : Prop :=
  ∀ p, ¬ Upstream net filt p p

/-- Network invariant: both endpoints of every connection are processors of the
network. -/
def Closed (net : Network) : Prop :=
  ∀ c ∈ net.connections, c.outProc ∈ net.processors ∧ c.inProc ∈ net.processors

/-- Number of processors not yet visited; the termination measure of the
traversal. -/
def unvisited (net : Network) (visited : List Nat) : Nat :=
  (net.processors.filter (fun q => decide (q ∉ visited))).length

/-- The ordering property claimed of the produced list: every listed processor
appears after every processor of its transitive upstream dependency set that
also occurs in the list. -/
def OrderedWrt (net : Network) (filt : Connection → Bool) (l : List Nat) : Prop :=
  ∀ p ∈ l, ∀ q, Upstream net filt q p → q ∈ l → l.indexOf q < l.indexOf p

/-- Invariant of the traversal state carried by the membership proofs:
visited processors belong to the network, the output is duplicate-free, output
members are visited, and every upstream neighbor of an output member has been
visited. -/
def InvMem (net : Network) (filt : Connection → Bool)
    (visited sorted : List Nat) : Prop :=
  (∀ v ∈ visited, v ∈ net.processors) ∧
  sorted.Nodup ∧
  (∀ x ∈ sorted, x ∈ visited) ∧
  (∀ x ∈ sorted, ∀ q ∈ upstreamVia net filt x, q ∈ visited)

/-- Invariant carried by the ordering proofs: every upstream neighbor of an
output member that is itself in the output occurs strictly before it. -/
def InvOrd (net : Network) (filt : Connection → Bool) (sorted : List Nat) : Prop :=
  ∀ x ∈ sorted, ∀ q ∈ upstreamVia net filt x, q ∈ sorted →
    sorted.indexOf q < sorted.indexOf x

/-- Hypothesis available to a traversal call: every already-visited processor
that has not yet been output lies on the recursion stack, hence the current
root is transitively upstream of it. -/
def StackOk (net : Network) (filt : Connection → Bool) (p : Nat)
    (visited sorted : List Nat) : Prop :=
  ∀ v ∈ visited, v ∉ sorted → Upstream net filt p v

/-- Postcondition of one traverseUp call used by the membership proofs. -/
def SpecA (net : Network) (filt : Connection → Bool) (p : Nat)
    (visited sorted : List Nat) (st : List Nat × List Nat) : Prop :=
  InvMem net filt st.1 st.2 ∧
  (∀ v ∈ visited, v ∈ st.1) ∧
  (∃ t, st.2 = sorted ++ t) ∧
  p ∈ st.1 ∧
  (∀ v ∈ st.1, v ∉ st.2 → v ∈ visited ∧ v ∉ sorted) ∧
  (∀ x ∈ st.1, x ∉ visited → x = p ∨ Upstream net filt x p) ∧
  (∀ x ∈ st.2, x ∈ sorted ∨ x ∉ visited)

/-- Postcondition of folding traverseUp over a list of start processors, used
by the membership proofs. -/
def FoldA (net : Network) (filt : Connection → Bool) (qs : List Nat)
    (visited sorted : List Nat) (st : List Nat × List Nat) : Prop :=
  InvMem net filt st.1 st.2 ∧
  (∀ v ∈ visited, v ∈ st.1) ∧
  (∃ t, st.2 = sorted ++ t) ∧
  (∀ q ∈ qs, q ∈ st.1) ∧
  (∀ v ∈ st.1, v ∉ st.2 → v ∈ visited ∧ v ∉ sorted) ∧
  (∀ x ∈ st.1, x ∉ visited → ∃ q ∈ qs, x = q ∨ Upstream net filt x q) ∧
  (∀ x ∈ st.2, x ∈ sorted ∨ x ∉ visited)

/-- Counterexample network: processors 0, 1, 2 with sink 2; connections
0 into 2 (inactive), 1 into 0 (inactive), 0 into 1 (active).  The active
subgraph has the single edge 0 into 1 and is acyclic, but the full connection
graph has the cycle 0, 1. -/
def exC : Network :=
  ⟨[0, 1, 2], [⟨0, 0, 2, 0, false⟩, ⟨1, 0, 0, 1, false⟩, ⟨0, 1, 1, 1, true⟩], [2]⟩

/-- Witness network: a two-processor chain 0 into 1 (active), sink 1. -/
def exW : Network := ⟨[0, 1], [⟨0, 0, 1, 0, true⟩], [1]⟩

end Topo

namespace POwner

/-- A property as far as PropertyOwner manipulates it.  pid models the machine
address (object identity); isEvent and isComposite model the dynamic_cast
checks; invalid the invalidation state of the property (0 = Valid); hasOwner
the owner back-pointer. -/
structure Property where
  pid : Nat
  identifier : String
  classIdentifier : String
  isEvent : Bool
  isComposite : Bool
  value : Int
  invalid : Nat
  serializeAll : Bool
  hasOwner : Bool
deriving DecidableEq, Repr

/-- The two-phase observer callbacks emitted around a structural insertion. -/
inductive Notice where
  | willAdd (pid index : Nat)
  | didAdd (pid index : Nat)
deriving DecidableEq, Repr

/-- PropertyOwner state: the ordered property list (canonical property state),
the EventProperty and CompositeProperty side indices, the owned-property
container, the registered observers, and the invalidation level (0 = Valid).
selfPid is the address of this owner when the owner is itself a Property
(a CompositeProperty), used by the self-containment guard. -/
structure PropertyOwner where
  selfPid : Option Nat
  properties : List Property
  eventProperties : List Property
  compositeProperties : List Property
  ownedProperties : List Property
  observers : List Nat
  invalidationLevel : Nat
deriving DecidableEq, Repr

/-- PropertyOwner::getPropertyByIdentifier with recursiveSearch = false: first
direct child with the given identifier. -/
def getPropertyByIdentifier (o : PropertyOwner) (id : String) : Option Property :=
  o.properties.find? (fun p => p.identifier == id)

/-- PropertyOwner::insertPropertyImpl: insert into the ordered list at the
iterator position, set the owner back-pointer, update the side indices, and on
ownership transfer store the property in the owned container and set its
serialization mode to All. -/
def insertPropertyImpl (o : PropertyOwner) (index : Nat) (property : Property)
    (owner : Bool) : PropertyOwner :=
  let stored : Property :=
    { property with
      hasOwner := true
      serializeAll := if owner then true else property.serializeAll }
  { o with
    properties := o.properties.take index ++ [stored] ++ o.properties.drop index
    eventProperties :=
      if stored.isEvent then o.eventProperties ++ [stored] else o.eventProperties
    compositeProperties :=
      if stored.isComposite then o.compositeProperties ++ [stored]
      else o.compositeProperties
    ownedProperties :=
      if owner then o.ownedProperties ++ [stored] else o.ownedProperties }

/-- PropertyOwner::insertProperty(index, property, owner) (propertyowner.cpp
lines 131-154): clamp the index, throw on duplicate identifier, throw on
self-containment, otherwise notify will-add, mutate, notify did-add.  The
error return models the throw: the owner is untouched and no notification has
been emitted. -/
def insertProperty (o : PropertyOwner) (index : Nat) (property : Property)
    (owner : Bool) : Except String (PropertyOwner × List Notice) :=
  let index := min index o.properties.length
  match getPropertyByIdentifier o property.identifier with
  | some _ => .error "duplicate identifier"
  | none =>
    if o.selfPid = some property.pid then .error "cannot add property to itself"
    else
      .ok (insertPropertyImpl o index property owner,
        [.willAdd property.pid index, .didAdd property.pid index])

/-- PropertyOwner::addProperty(property, owner): insert at the end. -/
def addProperty (o : PropertyOwner) (property : Property) (owner : Bool) :
    Except String (PropertyOwner × List Notice) :=
  insertProperty o o.properties.length property owner

/-- PropertyOwner::invalidate (propertyowner.cpp lines 343-345): raise the
stored level to the max of the current level and the argument. -/
def invalidate (o : PropertyOwner) (level : Nat) : PropertyOwner :=
  { o with invalidationLevel := max o.invalidationLevel level }

/-- Modelled from the spec: Property::setValid (the Property class body is not
part of the sources) clears the invalidation state of the property back to
Valid. -/
def Property.setValid (p : Property) : Property := { p with invalid := 0 }

/-- PropertyOwner::setValid (propertyowner.cpp lines 336-339): set every child
property valid, then the stored level to Valid. -/
def setValid (o : PropertyOwner) : PropertyOwner :=
  { o with
    properties := o.properties.map Property.setValid
    invalidationLevel := 0 }

/-- Modelled from the spec: the virtual Property::clone (not part of the
sources) produces a deep copy of the property value; the fresh object has no
owner back-pointer yet. -/
def Property.clone (p : Property) : Property := { p with hasOwner := false }

/-- The value a clone carries after addProperty took ownership of it: owner
back-pointer set and serialization mode All. -/
def cloneAdded (p : Property) : Property :=
  { p with hasOwner := true, serializeAll := true }

/-- PropertyOwner copy constructor (propertyowner.cpp lines 54-65): start from
an empty owner carrying over only the invalidation level (the
PropertyOwnerObservable base is copy-constructed, which — modelled from the
spec — registers no observers on the new object), then re-add a clone of every
owned property of the source, taking ownership of each clone. -/
def copyPropertyOwner (rhs : PropertyOwner) : Except String PropertyOwner :=
  rhs.ownedProperties.foldlM
    (fun o p => (addProperty o (Property.clone p) true).map (fun r => r.1))
    { selfPid := none
      properties := []
      eventProperties := []
      compositeProperties := []
      ownedProperties := []
      observers := []
      invalidationLevel := rhs.invalidationLevel }

/-- A concrete owner used by the witnesses: one non-owned property with
identifier a. -/
def exOwner : PropertyOwner :=
  ⟨none, [⟨1, "a", "IntProperty", false, false, 3, 0, false, true⟩],
    [], [], [], [], 0⟩

/-- A concrete property whose identifier collides with the one of exOwner. -/
def exDupProperty : Property :=
  ⟨2, "a", "FloatProperty", false, false, 7, 0, false, false⟩

/-- A concrete property with a fresh identifier. -/
def exNewProperty : Property :=
  ⟨2, "b", "FloatProperty", false, false, 7, 0, false, false⟩

/-- A concrete owner with two owned properties, used by the copy witness. -/
def exOwnedOwner : PropertyOwner :=
  ⟨none,
    [⟨1, "a", "IntProperty", false, false, 3, 0, false, true⟩,
     ⟨2, "b", "OptionProperty", true, false, 5, 0, true, true⟩],
    [⟨2, "b", "OptionProperty", true, false, 5, 0, true, true⟩],
    [],
    [⟨1, "a", "IntProperty", false, false, 3, 0, false, true⟩,
     ⟨2, "b", "OptionProperty", true, false, 5, 0, true, true⟩],
    [7], 2⟩

end POwner

namespace PartialNet

/-- A connection as the partition loop looks at it: the processor of its
outport and the processor of its inport. -/
structure Connection where
  outProc : Nat
  inProc : Nat
deriving DecidableEq, Repr

/-- The connection partition of detail::PartialProcessorNetwork::serialize
(networkutils.cpp lines 284-296): for each connection, when the processor of
the inport is selected, record the connection as internal when the processor
of the outport is selected too, otherwise as external. -/
def partitionConnections (selected : List Nat) (connections : List Connection) :
    List Connection × List Connection :=
  connections.foldl
    (fun acc c =>
      if selected.contains c.inProc then
        if selected.contains c.outProc then (acc.1 ++ [c], acc.2)
        else (acc.1, acc.2 ++ [c])
      else acc)
    ([], [])

/-- Concrete selection used by the counterexample: only processor 0 is
selected. -/
def exSelected : List Nat := [0]

/-- Concrete connection from an outport of (selected) processor 0 into an
inport of (unselected) processor 1. -/
def exConn : Connection := ⟨0, 1⟩

/-- Concrete connection list holding exactly that connection. -/
def exConnections : List Connection := [⟨0, 1⟩]

end PartialNet

namespace Repl

/-- A top-level property of a processor as util::replaceProcessor reads it. -/
structure RProperty where
  identifier : String
  classIdentifier : String
  value : Int
deriving DecidableEq, Repr

/-- A processor as the property-copy part of util::replaceProcessor reads it:
network identifier and ordered top-level property list. -/
structure RProcessor where
  identifier : String
  properties : List RProperty
deriving DecidableEq, Repr

/-- PropertyOwner::getPropertyByIdentifier on a processor: first property with
the given identifier. -/
def getPropertyByIdentifier (p : RProcessor) (id : String) : Option RProperty :=
  p.properties.find? (fun q => q.identifier == id)

/-- One iteration of the copy loop of util::replaceProcessor (networkutils.cpp
lines 528-534): look up the first property of the new processor with the
identifier of oldProp; when found and the class identifiers are equal, set its
value from oldProp, otherwise leave it untouched. -/
def setFirstMatching (props : List RProperty) (oldProp : RProperty) : List RProperty :=
  match props with
  | [] => []
  | q :: rest =>
    if q.identifier == oldProp.identifier then
      (if q.classIdentifier == oldProp.classIdentifier then
        { q with value := oldProp.value }
      else q) :: rest
    else q :: setFirstMatching rest oldProp

/-- The effect of util::replaceProcessor (networkutils.cpp lines 482-569) on
the new processor state covered by the claim: run the property-copy loop over
the old properties, and give the new processor the identifier the old one had
(newProcessor.setIdentifier(old->getIdentifier()), line 567). -/
def replaceProcessorState (oldP newP : RProcessor) : RProcessor :=
  { identifier := oldP.identifier
    properties := oldP.properties.foldl setFirstMatching newP.properties }

/-- Concrete old processor for the witness: identifier procA, a float
property x and an int property y. -/
def exOld : RProcessor :=
  ⟨"procA", [⟨"x", "FloatProperty", 10⟩, ⟨"y", "IntProperty", 20⟩]⟩

/-- Concrete replacement processor: same class for x, different class for
y. -/
def exNew : RProcessor :=
  ⟨"procB", [⟨"x", "FloatProperty", 1⟩, ⟨"y", "DoubleProperty", 2⟩]⟩

/-- The x property of the old processor. -/
def exXProp : RProperty := ⟨"x", "FloatProperty", 10⟩

/-- The x property of the new processor before the copy. -/
def exNewX : RProperty := ⟨"x", "FloatProperty", 1⟩

end Repl

namespace SplitConn

/-- A processor as util::addProcessorOnConnection reads it: its inports and
outports, by identity. -/
structure SProcessor where
  inports : List Nat
  outports : List Nat
deriving DecidableEq, Repr

/-- Network state for connection splitting: the connection set (outport,
inport) and the port compatibility oracle canConnect inport outport, modelling
Inport::canConnectTo(outport). -/
structure SNetwork where
  connections : List (Nat × Nat)
  canConnect : Nat → Nat → Bool

/-- Modelled from the spec: ProcessorNetwork::removeConnection (not part of the
sources) removes the given connection from the connection set. -/
def removeConnection (net : SNetwork) (c : Nat × Nat) : SNetwork :=
  { net with connections := net.connections.erase c }

/-- Modelled from the spec: ProcessorNetwork::addConnection (not part of the
sources) adds the given connection to the connection set. -/
def addConnection (net : SNetwork) (c : Nat × Nat) : SNetwork :=
  { net with connections := net.connections ++ [c] }

/-- util::addProcessorOnConnection (networkutils.cpp lines 417-440): find the
first inport of the processor that can connect to the outport of the given
connection and the first outport of the processor that the inport of the given
connection can connect to; when both exist, remove the old connection and add
the two new ones and return true, otherwise return false without mutating the
network. -/
def addProcessorOnConnection (net : SNetwork) (proc : SProcessor)
    (c : Nat × Nat) : Bool × SNetwork :=
  let connectionOutport := c.1
  let connectionInport := c.2
  let inport := proc.inports.find? (fun port => net.canConnect port connectionOutport)
  let outport := proc.outports.find? (fun port => net.canConnect connectionInport port)
  match inport, outport with
  | some ip, some op =>
    (true,
      addConnection (addConnection (removeConnection net c) (connectionOutport, ip))
        (op, connectionInport))
  | _, _ => (false, net)

/-- Concrete network for the witness: one connection from outport 10 to
inport 20; inport 5 accepts outport 10, inport 20 accepts outport 6. -/
def exNet : SNetwork :=
  ⟨[(10, 20)], fun ip op => (ip == 5 && op == 10) || (ip == 20 && op == 6)⟩

/-- Concrete processor to insert on the connection: inport 5, outport 6. -/
def exProc : SProcessor := ⟨[5], [6]⟩

/-- A processor with no compatible ports, for the failure half of the
witness. -/
def exBadProc : SProcessor := ⟨[7], [8]⟩

end SplitConn

namespace ModMgr

/-- One module container: protection flags, whether its InviwoModule instance
exists, and whether its dynamic library is loaded. -/
structure ModuleC where
  protectedModule : Bool
  protectedLibrary : Bool
  moduleCreated : Bool
  libraryLoaded : Bool
deriving DecidableEq, Repr

/-- ModuleManager state plus the outcomes of its external collaborators: the
processor network contents (abstract), whether WorkspaceManager::save throws a
SerializationException, and whether the final WorkspaceManager::load throws. -/
structure MMState where
  runtimeModuleReloading : Bool
  saveThrows : Bool
  loadThrows : Bool
  network : List Nat
  modules : List ModuleC
deriving DecidableEq, Repr

/-- ModuleManager::reloadModules (modulemanager.cpp lines 188-276): return when
runtime reloading is disabled; serialize the network, returning on a
serialization failure before any teardown; otherwise clear the network, reset
non-protected modules, unload and reload non-protected libraries, re-create
non-protected modules, and deserialize the saved network (returning with the
network still cleared when that load throws). -/
def reloadModules (st : MMState) : MMState :=
  if !st.runtimeModuleReloading then st
  else if st.saveThrows then st
  else
    let savedNetwork := st.network
    let mods1 := st.modules.map
      (fun m => if m.protectedModule then m else { m with moduleCreated := false })
    let mods2 := mods1.map
      (fun m => if m.protectedLibrary then m else { m with libraryLoaded := false })
    let mods3 := mods2.map
      (fun m => if m.protectedLibrary then m else { m with libraryLoaded := true })
    let mods4 := mods3.map
      (fun m => if m.protectedModule then m else { m with moduleCreated := true })
    let st1 : MMState := { st with network := [], modules := mods4 }
    if st1.loadThrows then st1 else { st1 with network := savedNetwork }

/-- A concrete manager state whose workspace save fails, used by the witness:
reloading enabled, one unprotected live module, a non-empty network. -/
def exState : MMState := ⟨true, true, false, [1, 2], [⟨false, false, true, true⟩]⟩

end ModMgr

/-! ### Helper lemmas for PropertyOwner -/

namespace POwner

theorem getPropertyByIdentifier_of_exists (o : PropertyOwner) (id : String)
    (h : ∃ q ∈ o.properties, q.identifier = id) :
    ∃ r, getPropertyByIdentifier o id = some r := by
  obtain ⟨q, hq, hid⟩ := h
  unfold getPropertyByIdentifier
  rcases hf : o.properties.find? (fun p => p.identifier == id) with _ | r
  · exact absurd (by simp [hid]) (List.find?_eq_none.mp hf q hq)
  · exact ⟨r, hf⟩

theorem getPropertyByIdentifier_eq_none (o : PropertyOwner) (id : String)
    (h : ∀ q ∈ o.properties, q.identifier ≠ id) :
    getPropertyByIdentifier o id = none := by
  unfold getPropertyByIdentifier
  exact List.find?_eq_none.mpr (fun q hq => by simp [h q hq])

theorem invalidate_foldl_mono (levels : List Nat) :
    ∀ o : PropertyOwner,
      o.invalidationLevel ≤ (levels.foldl invalidate o).invalidationLevel := by
  induction levels with
  | nil => intro o; simp
  | cons l ls ih =>
    intro o
    refine le_trans ?_ (ih (invalidate o l))
    simp [invalidate]

theorem copy_fold (l : List Property) :
    ∀ o : PropertyOwner,
      o.selfPid = none →
      (∀ p ∈ l, ∀ q ∈ o.properties, q.identifier ≠ p.identifier) →
      (l.map (fun p => p.identifier)).Nodup →
      ∃ o2,
        l.foldlM
          (fun o p => (addProperty o (Property.clone p) true).map (fun r => r.1)) o
          = .ok o2 ∧
        o2.properties = o.properties ++ l.map cloneAdded ∧
        o2.ownedProperties = o.ownedProperties ++ l.map cloneAdded ∧
        o2.observers = o.observers ∧
        o2.invalidationLevel = o.invalidationLevel ∧
        o2.selfPid = none := by
  induction l with
  | nil =>
    intro o hself _ _
    exact ⟨o, rfl, by simp, by simp, rfl, rfl, hself⟩
  | cons p rest ih =>
    intro o hself hdisj hnodup
    have hstep : addProperty o (Property.clone p) true =
        .ok (insertPropertyImpl o o.properties.length (Property.clone p) true,
          [.willAdd (Property.clone p).pid o.properties.length,
           .didAdd (Property.clone p).pid o.properties.length]) := by
      unfold addProperty insertProperty
      have hnone : getPropertyByIdentifier o (Property.clone p).identifier = none := by
        refine getPropertyByIdentifier_eq_none o _ (fun q hq => ?_)
        exact hdisj p (by simp) q hq
      rw [hnone]
      simp [hself, Nat.min_self]
    have himplprops : (insertPropertyImpl o o.properties.length (Property.clone p) true).properties
        = o.properties ++ [cloneAdded p] := by
      simp [insertPropertyImpl, Property.clone, cloneAdded]
    have himplowned : (insertPropertyImpl o o.properties.length (Property.clone p) true).ownedProperties
        = o.ownedProperties ++ [cloneAdded p] := by
      simp [insertPropertyImpl, Property.clone, cloneAdded]
    have himplself : (insertPropertyImpl o o.properties.length (Property.clone p) true).selfPid
        = o.selfPid := rfl
    have himplobs : (insertPropertyImpl o o.properties.length (Property.clone p) true).observers
        = o.observers := rfl
    have himplinv : (insertPropertyImpl o o.properties.length (Property.clone p) true).invalidationLevel
        = o.invalidationLevel := rfl
    set o1 := insertPropertyImpl o o.properties.length (Property.clone p) true with ho1
    have hnd : (∀ x ∈ rest, ¬ x.identifier = p.identifier) ∧
        (rest.map (fun p => p.identifier)).Nodup := by
      simpa using hnodup
    have hnodup1 := hnd.2
    have hdisj1 : ∀ p' ∈ rest, ∀ q ∈ o1.properties, q.identifier ≠ p'.identifier := by
      intro p' hp' q hq
      rw [himplprops] at hq
      rcases List.mem_append.mp hq with hq | hq
      · exact hdisj p' (by simp [hp']) q hq
      · have hq' : q = cloneAdded p := by simpa using hq
        subst hq'
        have hne := hnd.1 p' hp'
        simp only [cloneAdded]
        exact fun hcontra => hne hcontra.symm
    obtain ⟨o2, hfold, hprops, howned, hobs, hinv, hself2⟩ :=
      ih o1 (by rw [himplself, hself]) hdisj1 hnodup1
    refine ⟨o2, ?_, ?_, ?_, ?_, ?_, hself2⟩
    · simp only [List.foldlM_cons, hstep]
      simpa [Except.map] using hfold
    · rw [hprops, himplprops]
      simp
    · rw [howned, himplowned]
      simp
    · rw [hobs, himplobs]
    · rw [hinv, himplinv]

end POwner

/-! ### Helper lemmas for partial-network extraction -/

namespace PartialNet

theorem partition_foldl (selected : List Nat) (connections : List Connection) :
    ∀ acc : List Connection × List Connection,
      connections.foldl
        (fun acc c =>
          if selected.contains c.inProc then
            if selected.contains c.outProc then (acc.1 ++ [c], acc.2)
            else (acc.1, acc.2 ++ [c])
          else acc) acc =
      (acc.1 ++ connections.filter
          (fun c => selected.contains c.inProc && selected.contains c.outProc),
       acc.2 ++ connections.filter
          (fun c => selected.contains c.inProc && !selected.contains c.outProc)) := by
  induction connections with
  | nil => intro acc; simp
  | cons c cs ih =>
    intro acc
    simp only [List.foldl_cons]
    by_cases h1 : c.inProc ∈ selected
    · have h1b : selected.contains c.inProc = true := by simpa using h1
      by_cases h2 : c.outProc ∈ selected
      · have h2b : selected.contains c.outProc = true := by simpa using h2
        rw [if_pos h1b, if_pos h2b, ih]
        simp [List.filter_cons, h1, h2]
      · have h2b : ¬ selected.contains c.outProc = true := by simpa using h2
        rw [if_pos h1b, if_neg h2b, ih]
        simp [List.filter_cons, h1, h2]
    · have h1b : ¬ selected.contains c.inProc = true := by simpa using h1
      rw [if_neg h1b, ih]
      simp [List.filter_cons, h1]

theorem partitionConnections_eq (selected : List Nat) (connections : List Connection) :
    partitionConnections selected connections =
      (connections.filter
        (fun c => selected.contains c.inProc && selected.contains c.outProc),
       connections.filter
        (fun c => selected.contains c.inProc && !selected.contains c.outProc)) := by
  unfold partitionConnections
  rw [partition_foldl]
  simp

end PartialNet

/-! ### Helper lemmas for replaceProcessor -/

namespace Repl

theorem setFirstMatching_find_other (op : RProperty) (id : String)
    (h : id ≠ op.identifier) :
    ∀ l : List RProperty,
      (setFirstMatching l op).find? (fun q => q.identifier == id)
        = l.find? (fun q => q.identifier == id) := by
  have hopid : (op.identifier == id) = false :=
    beq_eq_false_iff_ne.mpr (fun hcontra => h hcontra.symm)
  intro l
  induction l with
  | nil => rfl
  | cons q rest ih =>
    by_cases hq : q.identifier = op.identifier
    · by_cases hc : q.classIdentifier = op.classIdentifier
      · simp [setFirstMatching, hq, hc, List.find?_cons, hopid]
      · simp [setFirstMatching, hq, hc, List.find?_cons, hopid]
    · by_cases hqi : q.identifier = id
      · simp [setFirstMatching, hq, List.find?_cons, hqi, h]
      · simp [setFirstMatching, hq, List.find?_cons, hqi, ih]

theorem setFirstMatching_find_self (op : RProperty) :
    ∀ l : List RProperty,
      (setFirstMatching l op).find? (fun q => q.identifier == op.identifier)
        = (l.find? (fun q => q.identifier == op.identifier)).map
            (fun q => if q.classIdentifier == op.classIdentifier then
              { q with value := op.value } else q) := by
  intro l
  induction l with
  | nil => rfl
  | cons q rest ih =>
    by_cases hq : q.identifier = op.identifier
    · by_cases hc : q.classIdentifier = op.classIdentifier
      · simp [setFirstMatching, hq, hc, List.find?_cons]
      · simp [setFirstMatching, hq, hc, List.find?_cons]
    · simp [setFirstMatching, hq, List.find?_cons, ih]

theorem foldl_setFirstMatching_other (id : String) :
    ∀ (ops : List RProperty), (∀ o ∈ ops, o.identifier ≠ id) →
    ∀ l : List RProperty,
      (ops.foldl setFirstMatching l).find? (fun q => q.identifier == id)
        = l.find? (fun q => q.identifier == id) := by
  intro ops
  induction ops with
  | nil => intro _ l; simp
  | cons o rest ih =>
    intro h l
    simp only [List.foldl_cons]
    rw [ih (fun o' ho' => h o' (by simp [ho']))]
    exact setFirstMatching_find_other o id (fun hcontra => h o (by simp) hcontra.symm) l

end Repl

/-! ### Claim C2 -/

/-- Claim C2: for every PropertyOwner and every property whose identifier
equals the identifier of a property already in that owner, addProperty and
insertProperty throw (return an error before touching the owner or emitting
any will-add/did-add notification; the model returns the error before
producing any mutated owner or notification list). -/
theorem insertProperty_duplicate_identifier_throws
    (o : POwner.PropertyOwner) (index : Nat) (p : POwner.Property) (owner : Bool)
    (h : ∃ q ∈ o.properties, q.identifier = p.identifier) :
    POwner.insertProperty o index p owner = .error "duplicate identifier" ∧
    POwner.addProperty o p owner = .error "duplicate identifier" := by
  obtain ⟨r, hr⟩ := POwner.getPropertyByIdentifier_of_exists o p.identifier h
  constructor
  · unfold POwner.insertProperty
    rw [hr]
  · unfold POwner.addProperty POwner.insertProperty
    rw [hr]

/-- Witness for C2 at a concrete owner holding a property with identifier a. -/
theorem insertProperty_duplicate_identifier_throws_witness :
    (∃ q ∈ POwner.exOwner.properties,
        q.identifier = POwner.exDupProperty.identifier) ∧
    POwner.insertProperty POwner.exOwner 0 POwner.exDupProperty false
      = .error "duplicate identifier" :=
  ⟨by decide,
   (insertProperty_duplicate_identifier_throws POwner.exOwner 0
      POwner.exDupProperty false (by decide)).1⟩

/-! ### Claim C5 -/

/-- Claim C5: invalidate stores the maximum of the current level and the
argument, hence the level never decreases across any sequence of invalidate
calls; setValid sets every child property valid and the stored level back to
Valid (0). -/
theorem invalidate_monotone_setValid_resets
    (o : POwner.PropertyOwner) (level : Nat) (levels : List Nat) :
    (POwner.invalidate o level).invalidationLevel = max o.invalidationLevel level ∧
    o.invalidationLevel ≤ (POwner.invalidate o level).invalidationLevel ∧
    o.invalidationLevel ≤ (levels.foldl POwner.invalidate o).invalidationLevel ∧
    (POwner.setValid o).invalidationLevel = 0 ∧
    (∀ p ∈ (POwner.setValid o).properties, p.invalid = 0) := by
  refine ⟨rfl, by simp [POwner.invalidate], POwner.invalidate_foldl_mono levels o, rfl, ?_⟩
  intro p hp
  simp only [POwner.setValid, List.mem_map] at hp
  obtain ⟨q, _, rfl⟩ := hp
  rfl

/-! ### Claim C9 -/

/-- Claim C9: for every owner with n properties and every index greater than
n, insertProperty clamps the index to n and appends the property at the end of
the order, with the notifications also carrying the clamped index. -/
theorem insertProperty_index_clamped_appends
    (o : POwner.PropertyOwner) (index : Nat) (p : POwner.Property) (owner : Bool)
    (hdup : ∀ q ∈ o.properties, q.identifier ≠ p.identifier)
    (hself : o.selfPid ≠ some p.pid)
    (hidx : o.properties.length < index) :
    POwner.insertProperty o index p owner =
      .ok (POwner.insertPropertyImpl o o.properties.length p owner,
        [.willAdd p.pid o.properties.length, .didAdd p.pid o.properties.length]) ∧
    (POwner.insertPropertyImpl o o.properties.length p owner).properties =
      o.properties ++
        [({ p with
            hasOwner := true
            serializeAll := if owner then true else p.serializeAll } : POwner.Property)] := by
  constructor
  · unfold POwner.insertProperty
    rw [POwner.getPropertyByIdentifier_eq_none o p.identifier hdup]
    simp [hself, Nat.min_eq_right (Nat.le_of_lt hidx)]
  · simp [POwner.insertPropertyImpl]

/-- Witness for C9: inserting at index 5 into an owner with one property
appends at index 1. -/
theorem insertProperty_index_clamped_appends_witness :
    ((∀ q ∈ POwner.exOwner.properties,
        q.identifier ≠ POwner.exNewProperty.identifier) ∧
      POwner.exOwner.properties.length < 5) ∧
    POwner.insertProperty POwner.exOwner 5 POwner.exNewProperty false
      = .ok (POwner.insertPropertyImpl POwner.exOwner
          POwner.exOwner.properties.length POwner.exNewProperty false,
        [.willAdd POwner.exNewProperty.pid POwner.exOwner.properties.length,
         .didAdd POwner.exNewProperty.pid POwner.exOwner.properties.length]) :=
  ⟨⟨by decide, by decide⟩,
   (insertProperty_index_clamped_appends POwner.exOwner 5 POwner.exNewProperty false
      (by decide) (by decide) (by decide)).1⟩

/-! ### Claim C8 -/

/-- Claim C8: when runtime module reloading is enabled and serializing the
current workspace fails, reloadModules returns before any teardown: the
network is not cleared, no module is reset and no library is unloaded — the
state is exactly as before the call. -/
theorem reloadModules_save_failure_aborts (st : ModMgr.MMState)
    (henabled : st.runtimeModuleReloading = true) (hsave : st.saveThrows = true) :
    ModMgr.reloadModules st = st := by
  simp [ModMgr.reloadModules, henabled, hsave]

/-- Witness for C8 at a concrete manager state with one unprotected module. -/
theorem reloadModules_save_failure_aborts_witness :
    (ModMgr.exState.runtimeModuleReloading = true ∧
      ModMgr.exState.saveThrows = true) ∧
    ModMgr.reloadModules ModMgr.exState = ModMgr.exState :=
  ⟨⟨rfl, rfl⟩, reloadModules_save_failure_aborts ModMgr.exState rfl rfl⟩

/-! ### Claim C3 -/

/-- Counterexample for C3 as stated: a connection whose outport-side processor
is selected but whose inport-side processor is not has exactly one selected
endpoint, yet it is recorded neither as external nor as internal — the loop
only looks at connections whose inport-side processor is selected. -/
theorem partitionConnections_outport_only_dropped :
    PartialNet.exConn.outProc ∈ PartialNet.exSelected ∧
    PartialNet.exConn.inProc ∉ PartialNet.exSelected ∧
    PartialNet.exConn ∈ PartialNet.exConnections ∧
    (PartialNet.partitionConnections PartialNet.exSelected
      PartialNet.exConnections).1 = [] ∧
    (PartialNet.partitionConnections PartialNet.exSelected
      PartialNet.exConnections).2 = [] := by
  decide

/-- Claim C3 (amended): partial-network extraction records a connection as
internal exactly when both endpoint processors are selected, and as external
exactly when the inport-side processor is selected and the outport-side
processor is not; a connection selected only on its outport side is not
recorded at all. -/
theorem partitionConnections_internal_external_partition
    (selected : List Nat) (connections : List PartialNet.Connection) :
    (∀ c, c ∈ (PartialNet.partitionConnections selected connections).1 ↔
      c ∈ connections ∧ c.inProc ∈ selected ∧ c.outProc ∈ selected) ∧
    (∀ c, c ∈ (PartialNet.partitionConnections selected connections).2 ↔
      c ∈ connections ∧ c.inProc ∈ selected ∧ c.outProc ∉ selected) := by
  rw [PartialNet.partitionConnections_eq]
  constructor <;> intro c <;> simp [List.mem_filter, and_assoc]

/-! ### Claim C4 -/

/-- Claim C4: after replaceProcessor, the new processor holds the identifier
the old one had, and for every top-level property of the old processor that
the new processor matches by identifier, the matched property keeps its value
when the class identifiers differ and takes the old value when they are
equal (no coercion). -/
theorem replaceProcessor_identifier_and_value_copy
    (oldP newP : Repl.RProcessor)
    (hold : (oldP.properties.map (fun q => q.identifier)).Nodup) :
    (Repl.replaceProcessorState oldP newP).identifier = oldP.identifier ∧
    ∀ op ∈ oldP.properties, ∀ np,
      Repl.getPropertyByIdentifier newP op.identifier = some np →
      Repl.getPropertyByIdentifier (Repl.replaceProcessorState oldP newP)
          op.identifier =
        some (if np.classIdentifier == op.classIdentifier then
          { np with value := op.value } else np) := by
  refine ⟨rfl, ?_⟩
  intro op hop np hnp
  obtain ⟨pre, post, hsplit⟩ := List.append_of_mem hop
  have hnd : ((pre ++ op :: post).map (fun q => q.identifier)).Nodup := hsplit ▸ hold
  rw [List.map_append, List.map_cons] at hnd
  have hnd2 := List.nodup_append.mp hnd
  have hpre : ∀ o ∈ pre, o.identifier ≠ op.identifier := by
    intro o ho hcontra
    exact hnd2.2.2 (List.mem_map.mpr ⟨o, ho, rfl⟩) (by simp [hcontra])
  have hpost : ∀ o ∈ post, o.identifier ≠ op.identifier := by
    intro o ho hcontra
    have hnotin := (List.nodup_cons.mp hnd2.2.1).1
    exact hnotin (hcontra ▸ List.mem_map.mpr ⟨o, ho, rfl⟩)
  simp only [Repl.getPropertyByIdentifier, Repl.replaceProcessorState] at hnp ⊢
  rw [hsplit, List.foldl_append, List.foldl_cons]
  rw [Repl.foldl_setFirstMatching_other op.identifier post hpost _]
  rw [Repl.setFirstMatching_find_self op _]
  rw [Repl.foldl_setFirstMatching_other op.identifier pre hpre _]
  rw [hnp]
  rfl

/-- Witness for C4: replacing procA (x : FloatProperty = 10, y : IntProperty
= 20) by procB (x : FloatProperty = 1, y : DoubleProperty = 2) gives procB
the identifier procA and copies only the x value. -/
theorem replaceProcessor_identifier_and_value_copy_witness :
    ((Repl.exOld.properties.map (fun q => q.identifier)).Nodup ∧
      Repl.exXProp ∈ Repl.exOld.properties ∧
      Repl.getPropertyByIdentifier Repl.exNew Repl.exXProp.identifier
        = some Repl.exNewX) ∧
    (Repl.replaceProcessorState Repl.exOld Repl.exNew).identifier
      = Repl.exOld.identifier ∧
    Repl.getPropertyByIdentifier (Repl.replaceProcessorState Repl.exOld Repl.exNew)
        Repl.exXProp.identifier
      = some (if Repl.exNewX.classIdentifier == Repl.exXProp.classIdentifier then
          { Repl.exNewX with value := Repl.exXProp.value } else Repl.exNewX) :=
  ⟨⟨by decide, by decide, by decide⟩,
   (replaceProcessor_identifier_and_value_copy Repl.exOld Repl.exNew (by decide)).1,
   (replaceProcessor_identifier_and_value_copy Repl.exOld Repl.exNew (by decide)).2
     Repl.exXProp (by decide) Repl.exNewX (by decide)⟩

/-! ### Claim C6 -/

/-- Claim C6: copy-constructing a PropertyOwner yields an owner whose property
list consists of clones of exactly the owned properties of the source (deep
copies by value, hence independently mutable), all owned by the copy, and with
no observer registered on the copy. -/
theorem copy_constructor_clones_owned_no_observers (rhs : POwner.PropertyOwner)
    (h : (rhs.ownedProperties.map (fun p => p.identifier)).Nodup) :
    ∃ c, POwner.copyPropertyOwner rhs = .ok c ∧
      c.properties = rhs.ownedProperties.map POwner.cloneAdded ∧
      c.ownedProperties = rhs.ownedProperties.map POwner.cloneAdded ∧
      c.observers = [] ∧
      c.invalidationLevel = rhs.invalidationLevel := by
  obtain ⟨o2, hfold, hprops, howned, hobs, hinv, _⟩ :=
    POwner.copy_fold rhs.ownedProperties
      { selfPid := none, properties := [], eventProperties := [],
        compositeProperties := [], ownedProperties := [], observers := [],
        invalidationLevel := rhs.invalidationLevel }
      rfl (by intro p hp q hq; exact absurd hq (List.not_mem_nil q)) h
  refine ⟨o2, hfold, ?_, ?_, hobs, hinv⟩
  · rw [hprops]; simp
  · rw [howned]; simp

/-- Witness for C6 at a concrete owner with two owned properties and one
registered observer. -/
theorem copy_constructor_clones_owned_no_observers_witness :
    (POwner.exOwnedOwner.ownedProperties.map (fun p => p.identifier)).Nodup ∧
    ∃ c, POwner.copyPropertyOwner POwner.exOwnedOwner = .ok c ∧
      c.properties = POwner.exOwnedOwner.ownedProperties.map POwner.cloneAdded ∧
      c.ownedProperties = POwner.exOwnedOwner.ownedProperties.map POwner.cloneAdded ∧
      c.observers = [] ∧
      c.invalidationLevel = POwner.exOwnedOwner.invalidationLevel :=
  ⟨by decide,
   copy_constructor_clones_owned_no_observers POwner.exOwnedOwner (by decide)⟩

/-! ### Claim C7 -/

/-- Claim C7: when the processor has an inport that can connect to the outport
of the given connection and an outport that the inport of the connection can
connect to, addProcessorOnConnection removes the old connection, adds the two
new ones and returns true; otherwise it returns false and the network is
exactly what it was before the call. -/
theorem addProcessorOnConnection_splits_or_no_mutation
    (net : SplitConn.SNetwork) (proc : SplitConn.SProcessor) (c : Nat × Nat) :
    ((∃ ip ∈ proc.inports, net.canConnect ip c.1 = true) →
     (∃ op ∈ proc.outports, net.canConnect c.2 op = true) →
      (SplitConn.addProcessorOnConnection net proc c).1 = true ∧
      ∃ ip op, ip ∈ proc.inports ∧ net.canConnect ip c.1 = true ∧
        op ∈ proc.outports ∧ net.canConnect c.2 op = true ∧
        (SplitConn.addProcessorOnConnection net proc c).2.connections
          = net.connections.erase c ++ [(c.1, ip)] ++ [(op, c.2)]) ∧
    (((∀ ip ∈ proc.inports, net.canConnect ip c.1 = false) ∨
      (∀ op ∈ proc.outports, net.canConnect c.2 op = false)) →
      (SplitConn.addProcessorOnConnection net proc c).1 = false ∧
      (SplitConn.addProcessorOnConnection net proc c).2 = net) := by
  rcases hin : proc.inports.find? (fun port => net.canConnect port c.1) with _ | ip0
  · refine ⟨?_, ?_⟩
    · rintro ⟨ip, hip, hipc⟩ _
      have := List.find?_eq_none.mp hin ip hip
      simp [hipc] at this
    · intro _
      simp [SplitConn.addProcessorOnConnection, hin]
  · rcases hout : proc.outports.find? (fun port => net.canConnect c.2 port) with _ | op0
    · refine ⟨?_, ?_⟩
      · rintro _ ⟨op, hop, hopc⟩
        have := List.find?_eq_none.mp hout op hop
        simp [hopc] at this
      · intro _
        simp [SplitConn.addProcessorOnConnection, hin, hout]
    · have hip0 := List.mem_of_find?_eq_some hin
      have hipc0 : net.canConnect ip0 c.1 = true := by
        have := List.find?_some hin
        simpa using this
      have hop0 := List.mem_of_find?_eq_some hout
      have hopc0 : net.canConnect c.2 op0 = true := by
        have := List.find?_some hout
        simpa using this
      refine ⟨?_, ?_⟩
      · intro _ _
        refine ⟨?_, ip0, op0, hip0, hipc0, hop0, hopc0, ?_⟩
        · simp [SplitConn.addProcessorOnConnection, hin, hout]
        · simp [SplitConn.addProcessorOnConnection, hin, hout,
            SplitConn.addConnection, SplitConn.removeConnection]
      · rintro (hall | hall)
        · have := hall ip0 hip0
          rw [hipc0] at this
          exact absurd this (by simp)
        · have := hall op0 hop0
          rw [hopc0] at this
          exact absurd this (by simp)

/-- Witness for C7, both halves: a processor with compatible ports splits the
concrete connection (10, 20) into (10, 5) and (6, 20); one without compatible
ports leaves the network untouched. -/
theorem addProcessorOnConnection_splits_or_no_mutation_witness :
    ((∃ ip ∈ SplitConn.exProc.inports,
        SplitConn.exNet.canConnect ip (10, 20).1 = true) ∧
     (∃ op ∈ SplitConn.exProc.outports,
        SplitConn.exNet.canConnect (10, 20).2 op = true) ∧
     (∀ ip ∈ SplitConn.exBadProc.inports,
        SplitConn.exNet.canConnect ip (10, 20).1 = false)) ∧
    ((SplitConn.addProcessorOnConnection SplitConn.exNet SplitConn.exProc
        (10, 20)).1 = true ∧
      ∃ ip op, ip ∈ SplitConn.exProc.inports ∧
        SplitConn.exNet.canConnect ip (10, 20).1 = true ∧
        op ∈ SplitConn.exProc.outports ∧
        SplitConn.exNet.canConnect (10, 20).2 op = true ∧
        (SplitConn.addProcessorOnConnection SplitConn.exNet SplitConn.exProc
            (10, 20)).2.connections
          = SplitConn.exNet.connections.erase (10, 20) ++ [((10, 20).1, ip)]
              ++ [(op, (10, 20).2)]) ∧
    ((SplitConn.addProcessorOnConnection SplitConn.exNet SplitConn.exBadProc
        (10, 20)).1 = false ∧
      (SplitConn.addProcessorOnConnection SplitConn.exNet SplitConn.exBadProc
        (10, 20)).2 = SplitConn.exNet) :=
  ⟨⟨by decide, by decide, by decide⟩,
   (addProcessorOnConnection_splits_or_no_mutation SplitConn.exNet SplitConn.exProc
      (10, 20)).1 (by decide) (by decide),
   (addProcessorOnConnection_splits_or_no_mutation SplitConn.exNet SplitConn.exBadProc
      (10, 20)).2 (Or.inl (by decide))⟩

/-! ### Helper lemmas for the topological sort -/

namespace Topo

theorem filter_length_mono (f g : Nat → Bool) :
    ∀ l : List Nat, (∀ a ∈ l, f a = true → g a = true) →
      (l.filter f).length ≤ (l.filter g).length := by
  intro l
  induction l with
  | nil => intro _; simp
  | cons a t ih =>
    intro h
    have ht := ih (fun b hb => h b (List.mem_cons_of_mem _ hb))
    by_cases hfa : f a = true
    · have hga := h a (List.mem_cons_self a t) hfa
      simp only [List.filter_cons, hfa, hga, if_true, List.length_cons]
      omega
    · have hfa2 : f a = false := Bool.eq_false_iff.mpr hfa
      by_cases hga : g a = true
      · simp only [List.filter_cons, hfa2, hga, Bool.false_eq_true, if_false, if_true,
          List.length_cons]
        omega
      · have hga2 : g a = false := Bool.eq_false_iff.mpr hga
        simp only [List.filter_cons, hfa2, hga2, Bool.false_eq_true, if_false]
        omega

theorem filter_length_strict (f g : Nat → Bool)
    (hmono : ∀ a, f a = true → g a = true) :
    ∀ l : List Nat, ∀ p ∈ l, f p = false → g p = true →
      (l.filter f).length < (l.filter g).length := by
  intro l
  induction l with
  | nil => intro p hp; exact absurd hp (List.not_mem_nil p)
  | cons a t ih =>
    intro p hp hfp hgp
    have hmt := filter_length_mono f g t (fun b _ hb => hmono b hb)
    rcases List.mem_cons.mp hp with h | h
    · subst h
      simp only [List.filter_cons, hfp, hgp, Bool.false_eq_true, if_false, if_true,
        List.length_cons]
      omega
    · have hit := ih p h hfp hgp
      by_cases hfa : f a = true
      · have hga := hmono a hfa
        simp only [List.filter_cons, hfa, hga, if_true, List.length_cons]
        omega
      · have hfa2 : f a = false := Bool.eq_false_iff.mpr hfa
        by_cases hga : g a = true
        · simp only [List.filter_cons, hfa2, hga, Bool.false_eq_true, if_false, if_true,
            List.length_cons]
          omega
        · have hga2 : g a = false := Bool.eq_false_iff.mpr hga
          simp only [List.filter_cons, hfa2, hga2, Bool.false_eq_true, if_false]
          omega

theorem unvisited_mono (net : Network) (v1 v2 : List Nat)
    (h : ∀ x ∈ v1, x ∈ v2) : unvisited net v2 ≤ unvisited net v1 := by
  refine filter_length_mono _ _ net.processors ?_
  intro a _ ha
  simp only [decide_eq_true_eq] at ha ⊢
  exact fun hmem => ha (h a hmem)

theorem unvisited_lt_cons (net : Network) (visited : List Nat) (p : Nat)
    (hp : p ∈ net.processors) (hnp : p ∉ visited) :
    unvisited net (p :: visited) < unvisited net visited := by
  refine filter_length_strict _ _ ?_ net.processors p hp ?_ ?_
  · intro a ha
    simp only [decide_eq_true_eq] at ha ⊢
    exact fun hmem => ha (List.mem_cons_of_mem _ hmem)
  · simp
  · simp [hnp]

theorem unvisited_le_length (net : Network) (visited : List Nat) :
    unvisited net visited ≤ net.processors.length :=
  List.length_filter_le _ _

theorem upstreamVia_mem_processors (net : Network) (filt : Connection → Bool)
    (hclosed : Closed net) {q p : Nat} (h : q ∈ upstreamVia net filt p) :
    q ∈ net.processors := by
  simp only [upstreamVia, List.mem_map, List.mem_filter] at h
  obtain ⟨c, ⟨hc, _⟩, rfl⟩ := h
  exact (hclosed c hc).1

theorem traverseUp_foldA (net : Network) (filt : Connection → Bool) (fuel : Nat)
    (hone : ∀ p visited sorted, unvisited net visited < fuel → p ∈ net.processors →
      InvMem net filt visited sorted →
      SpecA net filt p visited sorted (traverseUp net filt fuel p (visited, sorted))) :
    ∀ qs : List Nat, (∀ q ∈ qs, q ∈ net.processors) →
    ∀ visited sorted, unvisited net visited < fuel →
      InvMem net filt visited sorted →
      FoldA net filt qs visited sorted
        (qs.foldl (fun s q => traverseUp net filt fuel q s) (visited, sorted)) := by
  intro qs
  induction qs with
  | nil =>
    intro _ visited sorted _ hInv
    exact ⟨hInv, fun v hv => hv, ⟨[], by simp⟩, by simp,
      fun v hv hnv => ⟨hv, hnv⟩, fun x hx hnx => absurd hx hnx,
      fun x hx => Or.inl hx⟩
  | cons q qs ih =>
    intro hqs visited sorted hfuel hInv
    simp only [List.foldl_cons]
    have s1 := hone q visited sorted hfuel (hqs q (by simp)) hInv
    obtain ⟨hInv1, hmono1, ⟨t1, ht1⟩, hqin1, hres1, hup1, hnew1⟩ := s1
    have hfuel1 : unvisited net (traverseUp net filt fuel q (visited, sorted)).1 < fuel :=
      lt_of_le_of_lt (unvisited_mono net _ _ hmono1) hfuel
    have ihh := ih (fun r hr => hqs r (by simp [hr]))
      (traverseUp net filt fuel q (visited, sorted)).1
      (traverseUp net filt fuel q (visited, sorted)).2
      hfuel1 hInv1
    rw [Prod.mk.eta] at ihh
    obtain ⟨hInv2, hmono2, ⟨t2, ht2⟩, hin2, hres2, hup2, hnew2⟩ := ihh
    refine ⟨hInv2, ?_, ?_, ?_, ?_, ?_, ?_⟩
    · exact fun v hv => hmono2 v (hmono1 v hv)
    · exact ⟨t1 ++ t2, by rw [ht2, ht1, List.append_assoc]⟩
    · intro r hr
      rcases List.mem_cons.mp hr with hr | hr
      · subst hr; exact hmono2 _ hqin1
      · exact hin2 r hr
    · intro v hv hnv
      have h1 := hres2 v hv hnv
      exact hres1 v h1.1 h1.2
    · intro x hx hnx
      by_cases hx1 : x ∈ (traverseUp net filt fuel q (visited, sorted)).1
      · rcases hup1 x hx1 hnx with h | h
        · exact ⟨q, by simp, Or.inl h⟩
        · exact ⟨q, by simp, Or.inr h⟩
      · obtain ⟨r, hr, h⟩ := hup2 x hx hx1
        exact ⟨r, by simp [hr], h⟩
    · intro x hx
      rcases hnew2 x hx with h | h
      · rcases hnew1 x h with h2 | h2
        · exact Or.inl h2
        · exact Or.inr h2
      · exact Or.inr (fun hc => h (hmono1 x hc))

theorem traverseUp_specA (net : Network) (filt : Connection → Bool)
    (hclosed : Closed net) :
    ∀ (fuel p : Nat) (visited sorted : List Nat),
      unvisited net visited < fuel → p ∈ net.processors →
      InvMem net filt visited sorted →
      SpecA net filt p visited sorted (traverseUp net filt fuel p (visited, sorted)) := by
  intro fuel
  induction fuel with
  | zero => intro p visited sorted hf _ _; exact absurd hf (Nat.not_lt_zero _)
  | succ fuel ih =>
    intro p visited sorted hfuel hp hInv
    by_cases hpv : p ∈ visited
    · have heq : traverseUp net filt (fuel + 1) p (visited, sorted) = (visited, sorted) := by
        simp [traverseUp, hpv]
      rw [heq]
      exact ⟨hInv, fun v hv => hv, ⟨[], by simp⟩, hpv,
        fun v hv hnv => ⟨hv, hnv⟩, fun x hx hnx => absurd hx hnx,
        fun x hx => Or.inl hx⟩
    · have heq : traverseUp net filt (fuel + 1) p (visited, sorted) =
        (((upstreamVia net filt p).foldl
            (fun s q => traverseUp net filt fuel q s) (p :: visited, sorted)).1,
         ((upstreamVia net filt p).foldl
            (fun s q => traverseUp net filt fuel q s) (p :: visited, sorted)).2 ++ [p]) := by
        simp [traverseUp, hpv]
      obtain ⟨hproc, hnd, hsub, hcl⟩ := hInv
      have hInv1 : InvMem net filt (p :: visited) sorted := by
        refine ⟨?_, hnd, ?_, ?_⟩
        · intro v hv
          rcases List.mem_cons.mp hv with h | h
          · subst h; exact hp
          · exact hproc v h
        · exact fun x hx => List.mem_cons_of_mem _ (hsub x hx)
        · exact fun x hx q hq => List.mem_cons_of_mem _ (hcl x hx q hq)
      have hfuel1 : unvisited net (p :: visited) < fuel := by
        have h1 := unvisited_lt_cons net visited p hp hpv
        omega
      have hfold := traverseUp_foldA net filt fuel
        (fun pp v s hf hpp hI => ih pp v s hf hpp hI)
        (upstreamVia net filt p)
        (fun q hq => upstreamVia_mem_processors net filt hclosed hq)
        (p :: visited) sorted hfuel1 hInv1
      rw [heq]
      set st2 := (upstreamVia net filt p).foldl
        (fun s q => traverseUp net filt fuel q s) (p :: visited, sorted) with hst2
      obtain ⟨⟨hproc2, hnd2, hsub2, hcl2⟩, hmono2, ⟨t2, ht2⟩, hqs2, hres2, hup2, hnew2⟩ := hfold
      have hpnot2 : p ∉ st2.2 := by
        intro hcontra
        rcases hnew2 p hcontra with h | h
        · exact hpv (hsub p h)
        · exact h (List.mem_cons_self p visited)
      refine ⟨⟨hproc2, ?_, ?_, ?_⟩, ?_, ?_, ?_, ?_, ?_, ?_⟩
      · refine List.nodup_append.mpr ⟨hnd2, List.nodup_singleton p, ?_⟩
        intro a ha ha2
        have hap := List.mem_singleton.mp ha2
        exact hpnot2 (hap ▸ ha)
      · intro x hx
        rcases List.mem_append.mp hx with h | h
        · exact hsub2 x h
        · have hxp := List.mem_singleton.mp h
          rw [hxp]
          exact hmono2 p (List.mem_cons_self p visited)
      · intro x hx q hq
        rcases List.mem_append.mp hx with h | h
        · exact hcl2 x h q hq
        · have hxp := List.mem_singleton.mp h
          rw [hxp] at hq
          exact hqs2 q hq
      · exact fun v hv => hmono2 v (List.mem_cons_of_mem _ hv)
      · exact ⟨t2 ++ [p], by rw [ht2, List.append_assoc]⟩
      · exact hmono2 p (List.mem_cons_self p visited)
      · intro v hv hnv
        have hv2 : v ∉ st2.2 := fun hc => hnv (List.mem_append.mpr (Or.inl hc))
        have h1 := hres2 v hv hv2
        rcases List.mem_cons.mp h1.1 with h | h
        · subst h
          exact absurd (List.mem_append.mpr (Or.inr (by simp))) hnv
        · exact ⟨h, h1.2⟩
      · intro x hx hnx
        by_cases hxp : x = p
        · exact Or.inl hxp
        · have hx1 : x ∉ p :: visited := by
            intro hc
            rcases List.mem_cons.mp hc with h | h
            · exact hxp h
            · exact hnx h
          obtain ⟨r, hr, h⟩ := hup2 x hx hx1
          have hrp : Upstream net filt r p := Relation.TransGen.single hr
          rcases h with h | h
          · subst h; exact Or.inr hrp
          · exact Or.inr (Relation.TransGen.trans h hrp)
      · intro x hx
        rcases List.mem_append.mp hx with h | h
        · rcases hnew2 x h with h2 | h2
          · exact Or.inl h2
          · exact Or.inr (fun hc => h2 (List.mem_cons_of_mem _ hc))
        · have hxp := List.mem_singleton.mp h
          rw [hxp]
          exact Or.inr hpv

end Topo

namespace Topo

theorem mem_upstreamVia {net : Network} {filt : Connection → Bool} {q p : Nat} :
    q ∈ upstreamVia net filt p ↔
      ∃ c, c ∈ net.connections ∧ c.inProc = p ∧ filt c = true ∧ c.outProc = q := by
  constructor
  · intro h
    simp only [upstreamVia, List.mem_map, List.mem_filter, Bool.and_eq_true,
      beq_iff_eq] at h
    obtain ⟨c, ⟨hc, hip, hf⟩, ho⟩ := h
    exact ⟨c, hc, hip, hf, ho⟩
  · rintro ⟨c, hc, hip, hf, ho⟩
    simp only [upstreamVia, List.mem_map, List.mem_filter, Bool.and_eq_true,
      beq_iff_eq]
    exact ⟨c, ⟨hc, hip, hf⟩, ho⟩

theorem acyclic_of_rank (net : Network) (filt : Connection → Bool) (f : Nat → Nat)
    (h : ∀ q p, edgeRel net filt q p → f q < f p) : Acyclic net filt := by
  have hall : ∀ a b, Upstream net filt a b → f a < f b := by
    intro a b hab
    induction hab with
    | single h1 => exact h _ _ h1
    | tail _ h2 ih => exact lt_trans ih (h _ _ h2)
  intro p hp
  exact absurd (hall p p hp) (lt_irrefl _)

theorem traverseUp_foldB (net : Network) (filt : Connection → Bool)
    (hclosed : Closed net) (fuel p0 : Nat)
    (honeB : ∀ (p : Nat) (visited sorted : List Nat),
      unvisited net visited < fuel → p ∈ net.processors →
      InvMem net filt visited sorted → InvOrd net filt sorted →
      StackOk net filt p visited sorted →
      InvOrd net filt (traverseUp net filt fuel p (visited, sorted)).2 ∧
      p ∈ (traverseUp net filt fuel p (visited, sorted)).2) :
    ∀ qs : List Nat, (∀ q ∈ qs, q ∈ net.processors) →
      (∀ q ∈ qs, Upstream net filt q p0) →
    ∀ visited sorted, unvisited net visited < fuel →
      InvMem net filt visited sorted →
      InvOrd net filt sorted →
      (∀ v ∈ visited, v ∉ sorted → v = p0 ∨ Upstream net filt p0 v) →
      InvOrd net filt
        (qs.foldl (fun s q => traverseUp net filt fuel q s) (visited, sorted)).2 ∧
      (∀ v ∈ (qs.foldl (fun s q => traverseUp net filt fuel q s) (visited, sorted)).1,
        v ∉ (qs.foldl (fun s q => traverseUp net filt fuel q s) (visited, sorted)).2 →
        v = p0 ∨ Upstream net filt p0 v) := by
  intro qs
  induction qs with
  | nil =>
    intro _ _ visited sorted _ _ hOrd hstack
    exact ⟨hOrd, hstack⟩
  | cons q qs ih =>
    intro hqs hup visited sorted hfuel hInv hOrd hstack
    simp only [List.foldl_cons]
    have hqp : q ∈ net.processors := hqs q (by simp)
    have hsA := traverseUp_specA net filt hclosed fuel q visited sorted hfuel hqp hInv
    obtain ⟨hInv1, hmono1, _, _, hres1, _, _⟩ := hsA
    have hstackq : StackOk net filt q visited sorted := by
      intro v hv hnv
      rcases hstack v hv hnv with h | h
      · rw [h]; exact hup q (by simp)
      · exact Relation.TransGen.trans (hup q (by simp)) h
    have hsB := honeB q visited sorted hfuel hqp hInv hOrd hstackq
    have hstack1 : ∀ v ∈ (traverseUp net filt fuel q (visited, sorted)).1,
        v ∉ (traverseUp net filt fuel q (visited, sorted)).2 →
        v = p0 ∨ Upstream net filt p0 v := by
      intro v hv hnv
      have h1 := hres1 v hv hnv
      exact hstack v h1.1 h1.2
    have hfuel1 : unvisited net (traverseUp net filt fuel q (visited, sorted)).1 < fuel :=
      lt_of_le_of_lt (unvisited_mono net _ _ hmono1) hfuel
    have ihh := ih (fun r hr => hqs r (by simp [hr])) (fun r hr => hup r (by simp [hr]))
      (traverseUp net filt fuel q (visited, sorted)).1
      (traverseUp net filt fuel q (visited, sorted)).2
      hfuel1 hInv1 hsB.1 hstack1
    rw [Prod.mk.eta] at ihh
    exact ihh

theorem traverseUp_specB (net : Network) (filt : Connection → Bool)
    (hclosed : Closed net) (hacyc : Acyclic net filt) :
    ∀ (fuel p : Nat) (visited sorted : List Nat),
      unvisited net visited < fuel → p ∈ net.processors →
      InvMem net filt visited sorted → InvOrd net filt sorted →
      StackOk net filt p visited sorted →
      InvOrd net filt (traverseUp net filt fuel p (visited, sorted)).2 ∧
      p ∈ (traverseUp net filt fuel p (visited, sorted)).2 := by
  intro fuel
  induction fuel with
  | zero => intro p v s hf _ _ _ _; exact absurd hf (Nat.not_lt_zero _)
  | succ fuel ih =>
    intro p visited sorted hfuel hp hInv hOrd hstack
    by_cases hpv : p ∈ visited
    · have heq : traverseUp net filt (fuel + 1) p (visited, sorted) = (visited, sorted) := by
        simp [traverseUp, hpv]
      rw [heq]
      by_cases hps : p ∈ sorted
      · exact ⟨hOrd, hps⟩
      · exact absurd (hstack p hpv hps) (hacyc p)
    · have heq : traverseUp net filt (fuel + 1) p (visited, sorted) =
        (((upstreamVia net filt p).foldl
            (fun s q => traverseUp net filt fuel q s) (p :: visited, sorted)).1,
         ((upstreamVia net filt p).foldl
            (fun s q => traverseUp net filt fuel q s) (p :: visited, sorted)).2 ++ [p]) := by
        simp [traverseUp, hpv]
      obtain ⟨hproc, hnd, hsub, hcl⟩ := hInv
      have hInv1 : InvMem net filt (p :: visited) sorted := by
        refine ⟨?_, hnd, ?_, ?_⟩
        · intro v hv
          rcases List.mem_cons.mp hv with h | h
          · rw [h]; exact hp
          · exact hproc v h
        · exact fun x hx => List.mem_cons_of_mem _ (hsub x hx)
        · exact fun x hx q hq => List.mem_cons_of_mem _ (hcl x hx q hq)
      have hfuel1 : unvisited net (p :: visited) < fuel := by
        have h1 := unvisited_lt_cons net visited p hp hpv
        omega
      have hfoldA := traverseUp_foldA net filt fuel
        (fun pp v s hf hpp hI => traverseUp_specA net filt hclosed fuel pp v s hf hpp hI)
        (upstreamVia net filt p)
        (fun q hq => upstreamVia_mem_processors net filt hclosed hq)
        (p :: visited) sorted hfuel1 hInv1
      have hstack1 : ∀ v ∈ p :: visited, v ∉ sorted → v = p ∨ Upstream net filt p v := by
        intro v hv hnv
        rcases List.mem_cons.mp hv with h | h
        · exact Or.inl h
        · exact Or.inr (hstack v h hnv)
      have hfoldB := traverseUp_foldB net filt hclosed fuel p
        (fun pp v s hf hpp hI hO hS => ih pp v s hf hpp hI hO hS)
        (upstreamVia net filt p)
        (fun q hq => upstreamVia_mem_processors net filt hclosed hq)
        (fun q hq => Relation.TransGen.single hq)
        (p :: visited) sorted hfuel1 hInv1 hOrd hstack1
      rw [heq]
      set st2 := (upstreamVia net filt p).foldl
        (fun s q => traverseUp net filt fuel q s) (p :: visited, sorted) with hst2
      obtain ⟨⟨hproc2, hnd2, hsub2, hcl2⟩, hmono2, ⟨t2, ht2⟩, hqs2, hres2, hup2, hnew2⟩ := hfoldA
      obtain ⟨hOrdF, _⟩ := hfoldB
      have hpnot2 : p ∉ st2.2 := by
        intro hcontra
        rcases hnew2 p hcontra with h | h
        · exact hpv (hsub p h)
        · exact h (List.mem_cons_self p visited)
      constructor
      · -- InvOrd (st2.2 ++ [p])
        intro x hx q hq hqmem
        rcases List.mem_append.mp hx with hxs | hxs
        · rcases List.mem_append.mp hqmem with hqs' | hqs'
          · rw [List.indexOf_append_of_mem hqs', List.indexOf_append_of_mem hxs]
            exact hOrdF x hxs q hq hqs'
          · -- q = p feeding an already-output x: impossible
            exfalso
            have hqp := List.mem_singleton.mp hqs'
            rw [hqp] at hq
            by_cases hxs0 : x ∈ sorted
            · exact hpv (hcl x hxs0 p hq)
            · rcases hnew2 x hxs with h | h
              · exact hxs0 h
              · have hx1 : x ∈ st2.1 := hsub2 x hxs
                obtain ⟨r, hr, hcase⟩ := hup2 x hx1 h
                have hrp : Upstream net filt r p := Relation.TransGen.single hr
                have hxp : Upstream net filt x p := by
                  rcases hcase with h2 | h2
                  · rw [h2]; exact hrp
                  · exact Relation.TransGen.trans h2 hrp
                have hpx : Upstream net filt p x := Relation.TransGen.single hq
                exact hacyc x (Relation.TransGen.trans hxp hpx)
        · have hxp := List.mem_singleton.mp hxs
          rcases List.mem_append.mp hqmem with hqs' | hqs'
          · rw [hxp]
            rw [List.indexOf_append_of_mem hqs', List.indexOf_append_of_not_mem hpnot2]
            have h0 : List.indexOf p [p] = 0 := List.indexOf_cons_self p []
            rw [h0, Nat.add_zero]
            exact List.indexOf_lt_length.mpr hqs'
          · exfalso
            have hqp := List.mem_singleton.mp hqs'
            rw [hxp] at hq
            rw [hqp] at hq
            exact hacyc p (Relation.TransGen.single hq)
      · exact List.mem_append.mpr (Or.inr (by simp))

theorem sortRun_specA (net : Network) (filt : Connection → Bool)
    (hclosed : Closed net) :
    ∀ roots : List Nat, (∀ r ∈ roots, r ∈ net.processors) →
    ∀ visited sorted,
      InvMem net filt visited sorted →
      (∀ v ∈ visited, v ∈ sorted) →
      InvMem net filt (sortRun net filt roots (visited, sorted)).1
        (sortRun net filt roots (visited, sorted)).2 ∧
      (∀ v ∈ (sortRun net filt roots (visited, sorted)).1,
        v ∈ (sortRun net filt roots (visited, sorted)).2) ∧
      (∃ t, (sortRun net filt roots (visited, sorted)).2 = sorted ++ t) ∧
      (∀ r ∈ roots, r ∈ (sortRun net filt roots (visited, sorted)).2) ∧
      (∀ x ∈ (sortRun net filt roots (visited, sorted)).2,
        x ∈ sorted ∨ ∃ r ∈ roots, x = r ∨ Upstream net filt x r) := by
  intro roots
  induction roots with
  | nil =>
    intro _ visited sorted hInv hres
    simp only [sortRun, List.foldl_nil]
    exact ⟨hInv, hres, ⟨[], by simp⟩, by simp, fun x hx => Or.inl hx⟩
  | cons r roots ih =>
    intro hroots visited sorted hInv hres
    have hunfold : sortRun net filt (r :: roots) (visited, sorted) =
        sortRun net filt roots
          (traverseUp net filt (net.processors.length + 1) r (visited, sorted)) := by
      simp [sortRun, List.foldl_cons]
    rw [hunfold]
    have hfuel : unvisited net visited < net.processors.length + 1 :=
      Nat.lt_succ_of_le (unvisited_le_length net visited)
    have hs1 := traverseUp_specA net filt hclosed (net.processors.length + 1) r
      visited sorted hfuel (hroots r (by simp)) hInv
    obtain ⟨hInv1, hmono1, ⟨t1, ht1⟩, hrin1, hres1, hup1, hnew1⟩ := hs1
    have hresE1 : ∀ v ∈ (traverseUp net filt (net.processors.length + 1) r
        (visited, sorted)).1,
        v ∈ (traverseUp net filt (net.processors.length + 1) r (visited, sorted)).2 := by
      intro v hv
      by_contra hnv
      have h2 := hres1 v hv hnv
      exact h2.2 (hres v h2.1)
    have hrin2 : r ∈ (traverseUp net filt (net.processors.length + 1) r
        (visited, sorted)).2 := hresE1 r hrin1
    have ihh := ih (fun r' hr' => hroots r' (by simp [hr']))
      (traverseUp net filt (net.processors.length + 1) r (visited, sorted)).1
      (traverseUp net filt (net.processors.length + 1) r (visited, sorted)).2
      hInv1 hresE1
    rw [Prod.mk.eta] at ihh
    obtain ⟨hInvF, hresF, ⟨t2, ht2⟩, hrootsF, hsoundF⟩ := ihh
    refine ⟨hInvF, hresF, ⟨t1 ++ t2, by rw [ht2, ht1, List.append_assoc]⟩, ?_, ?_⟩
    · intro r' hr'
      rcases List.mem_cons.mp hr' with h | h
      · rw [h, ht2]
        exact List.mem_append.mpr (Or.inl hrin2)
      · exact hrootsF r' h
    · intro x hx
      rcases hsoundF x hx with h | h
      · rcases hnew1 x h with h2 | h2
        · exact Or.inl h2
        · have hx1 : x ∈ (traverseUp net filt (net.processors.length + 1) r
              (visited, sorted)).1 := hInv1.2.2.1 x h
          rcases hup1 x hx1 h2 with h3 | h3
          · exact Or.inr ⟨r, by simp, Or.inl h3⟩
          · exact Or.inr ⟨r, by simp, Or.inr h3⟩
      · obtain ⟨r', hr', h3⟩ := h
        exact Or.inr ⟨r', by simp [hr'], h3⟩

theorem sortRun_specB (net : Network) (filt : Connection → Bool)
    (hclosed : Closed net) (hacyc : Acyclic net filt) :
    ∀ roots : List Nat, (∀ r ∈ roots, r ∈ net.processors) →
    ∀ visited sorted,
      InvMem net filt visited sorted →
      InvOrd net filt sorted →
      (∀ v ∈ visited, v ∈ sorted) →
      InvOrd net filt (sortRun net filt roots (visited, sorted)).2 := by
  intro roots
  induction roots with
  | nil =>
    intro _ visited sorted _ hOrd _
    simp only [sortRun, List.foldl_nil]
    exact hOrd
  | cons r roots ih =>
    intro hroots visited sorted hInv hOrd hres
    have hunfold : sortRun net filt (r :: roots) (visited, sorted) =
        sortRun net filt roots
          (traverseUp net filt (net.processors.length + 1) r (visited, sorted)) := by
      simp [sortRun, List.foldl_cons]
    rw [hunfold]
    have hfuel : unvisited net visited < net.processors.length + 1 :=
      Nat.lt_succ_of_le (unvisited_le_length net visited)
    have hs1 := traverseUp_specA net filt hclosed (net.processors.length + 1) r
      visited sorted hfuel (hroots r (by simp)) hInv
    obtain ⟨hInv1, hmono1, _, hrin1, hres1, _, _⟩ := hs1
    have hstack : StackOk net filt r visited sorted := by
      intro v hv hnv
      exact absurd (hres v hv) hnv
    have hsB := traverseUp_specB net filt hclosed hacyc (net.processors.length + 1) r
      visited sorted hfuel (hroots r (by simp)) hInv hOrd hstack
    have hresE1 : ∀ v ∈ (traverseUp net filt (net.processors.length + 1) r
        (visited, sorted)).1,
        v ∈ (traverseUp net filt (net.processors.length + 1) r (visited, sorted)).2 := by
      intro v hv
      by_contra hnv
      have h2 := hres1 v hv hnv
      exact h2.2 (hres v h2.1)
    have ihh := ih (fun r' hr' => hroots r' (by simp [hr']))
      (traverseUp net filt (net.processors.length + 1) r (visited, sorted)).1
      (traverseUp net filt (net.processors.length + 1) r (visited, sorted)).2
      hInv1 hsB.1 hresE1
    rw [Prod.mk.eta] at ihh
    exact ihh

theorem topoSortWith_mem (net : Network) (filt : Connection → Bool)
    (hclosed : Closed net) :
    (topoSortWith net filt).Nodup ∧
    ∀ p, p ∈ topoSortWith net filt ↔
      ∃ s, s ∈ net.processors ∧ s ∈ net.sinks ∧ ReachDown net filt p s := by
  have hroots : ∀ r ∈ net.processors.filter (fun p => net.sinks.contains p),
      r ∈ net.processors := fun r hr => (List.mem_filter.mp hr).1
  have hInv0 : InvMem net filt [] [] :=
    ⟨fun v hv => absurd hv (List.not_mem_nil v), List.nodup_nil,
     fun x hx => absurd hx (List.not_mem_nil x),
     fun x hx => absurd hx (List.not_mem_nil x)⟩
  have h := sortRun_specA net filt hclosed _ hroots [] [] hInv0
    (fun v hv => absurd hv (List.not_mem_nil v))
  obtain ⟨⟨hproc, hnd, hsub, hcl⟩, hresE, _, hrootsIn, hsound⟩ := h
  refine ⟨hnd, ?_⟩
  intro p
  constructor
  · intro hp
    rcases hsound p hp with h | h
    · exact absurd h (List.not_mem_nil p)
    · obtain ⟨r, hr, hcase⟩ := h
      have hrmem := List.mem_filter.mp hr
      refine ⟨r, hrmem.1, by simpa using hrmem.2, ?_⟩
      rcases hcase with h2 | h2
      · rw [h2]
        exact Relation.ReflTransGen.refl
      · exact Relation.TransGen.to_reflTransGen h2
  · rintro ⟨s, hsp, hss, hreach⟩
    have hsroot : s ∈ net.processors.filter (fun p => net.sinks.contains p) :=
      List.mem_filter.mpr ⟨hsp, by simpa using hss⟩
    have hsin : s ∈ topoSortWith net filt := hrootsIn s hsroot
    induction hreach using Relation.ReflTransGen.head_induction_on with
    | refl => exact hsin
    | head h1 h2 ihr => exact hresE _ (hcl _ ihr _ h1)

theorem topoSortWith_ordered (net : Network) (filt : Connection → Bool)
    (hclosed : Closed net) (hacyc : Acyclic net filt) :
    OrderedWrt net filt (topoSortWith net filt) := by
  have hroots : ∀ r ∈ net.processors.filter (fun p => net.sinks.contains p),
      r ∈ net.processors := fun r hr => (List.mem_filter.mp hr).1
  have hInv0 : InvMem net filt [] [] :=
    ⟨fun v hv => absurd hv (List.not_mem_nil v), List.nodup_nil,
     fun x hx => absurd hx (List.not_mem_nil x),
     fun x hx => absurd hx (List.not_mem_nil x)⟩
  have hA := sortRun_specA net filt hclosed _ hroots [] [] hInv0
    (fun v hv => absurd hv (List.not_mem_nil v))
  obtain ⟨⟨hproc, hnd, hsub, hcl⟩, hresE, _, _, _⟩ := hA
  have hOrd : InvOrd net filt (topoSortWith net filt) :=
    sortRun_specB net filt hclosed hacyc _ hroots [] [] hInv0
      (fun x hx => absurd hx (List.not_mem_nil x))
      (fun v hv => absurd hv (List.not_mem_nil v))
  have hcll : ∀ x ∈ topoSortWith net filt, ∀ q ∈ upstreamVia net filt x,
      q ∈ topoSortWith net filt := fun x hx q hq => hresE q (hcl x hx q hq)
  intro p hp q hq hql
  revert hp
  induction hq with
  | single h => intro hp; exact hOrd _ hp q h hql
  | tail h1 h2 ihq =>
    intro hp
    have hbmem := hcll _ hp _ h2
    exact lt_trans (ihq hbmem) (hOrd _ hp _ h2 hbmem)

end Topo

namespace Topo

theorem exC_active_rank : ∀ q p : Nat, edgeRel exC isConnectionActive q p → q < p := by
  intro q p h
  have h2 : q ∈ upstreamVia exC isConnectionActive p := h
  rw [mem_upstreamVia] at h2
  obtain ⟨c, hc, hip, hf, ho⟩ := h2
  simp only [exC, List.mem_cons, List.not_mem_nil, or_false] at hc
  rcases hc with rfl | rfl | rfl
  · simp [isConnectionActive] at hf
  · simp [isConnectionActive] at hf
  · simp at hip ho
    omega

theorem exW_rank (filt : Connection → Bool) :
    ∀ q p : Nat, edgeRel exW filt q p → q < p := by
  intro q p h
  have h2 : q ∈ upstreamVia exW filt p := h
  rw [mem_upstreamVia] at h2
  obtain ⟨c, hc, hip, hf, ho⟩ := h2
  simp only [exW, List.mem_cons, List.not_mem_nil, or_false] at hc
  rcases hc with rfl
  simp at hip ho
  omega

end Topo

/-! ### Claim C1 -/

/-- Counterexample for C1 as stated: in exC the active-connection subgraph
(single edge 0 into 1) is acyclic, processor 0 is in the transitive
active-upstream set of processor 1, both occur in the list produced by the
unfiltered topologicalSort, yet 0 appears after 1 — the unfiltered traversal
follows the inactive connections as well, and those form a cycle, so only
topologicalSortFiltered is ordered under this hypothesis. -/
theorem topologicalSort_active_acyclic_insufficient :
    Topo.Acyclic Topo.exC Topo.isConnectionActive ∧
    0 ∈ Topo.topologicalSort Topo.exC ∧
    1 ∈ Topo.topologicalSort Topo.exC ∧
    Topo.Upstream Topo.exC Topo.isConnectionActive 0 1 ∧
    ¬ ((Topo.topologicalSort Topo.exC).indexOf 0
        < (Topo.topologicalSort Topo.exC).indexOf 1) :=
  ⟨Topo.acyclic_of_rank Topo.exC Topo.isConnectionActive id Topo.exC_active_rank,
   by decide, by decide,
   Relation.TransGen.single
     (show (0 : Nat) ∈ Topo.upstreamVia Topo.exC Topo.isConnectionActive 1 by decide),
   by decide⟩

/-- Claim C1 (amended): for every network whose connections only join
processors of the network, topologicalSortFiltered orders every listed
processor after its whole transitive active-connection upstream set whenever
the active-connection subgraph is acyclic, and topologicalSort orders every
listed processor after its whole transitive upstream set over all connections
whenever the full connection graph is acyclic. -/
theorem topologicalSort_orders_after_upstream (net : Topo.Network)
    (hclosed : Topo.Closed net) :
    (Topo.Acyclic net Topo.isConnectionActive →
      Topo.OrderedWrt net Topo.isConnectionActive (Topo.topologicalSortFiltered net)) ∧
    (Topo.Acyclic net Topo.allConnections →
      Topo.OrderedWrt net Topo.allConnections (Topo.topologicalSort net)) :=
  ⟨fun hacyc => Topo.topoSortWith_ordered net Topo.isConnectionActive hclosed hacyc,
   fun hacyc => Topo.topoSortWith_ordered net Topo.allConnections hclosed hacyc⟩

/-- Witness for the amended C1 at the concrete acyclic chain exW. -/
theorem topologicalSort_orders_after_upstream_witness :
    Topo.Closed Topo.exW ∧
    Topo.Acyclic Topo.exW Topo.isConnectionActive ∧
    Topo.Acyclic Topo.exW Topo.allConnections ∧
    Topo.OrderedWrt Topo.exW Topo.isConnectionActive
      (Topo.topologicalSortFiltered Topo.exW) ∧
    Topo.OrderedWrt Topo.exW Topo.allConnections (Topo.topologicalSort Topo.exW) := by
  have hclosed : Topo.Closed Topo.exW := by unfold Topo.Closed; decide
  have ha1 : Topo.Acyclic Topo.exW Topo.isConnectionActive :=
    Topo.acyclic_of_rank Topo.exW Topo.isConnectionActive id
      (Topo.exW_rank Topo.isConnectionActive)
  have ha2 : Topo.Acyclic Topo.exW Topo.allConnections :=
    Topo.acyclic_of_rank Topo.exW Topo.allConnections id
      (Topo.exW_rank Topo.allConnections)
  exact ⟨hclosed, ha1, ha2,
    (topologicalSort_orders_after_upstream Topo.exW hclosed).1 ha1,
    (topologicalSort_orders_after_upstream Topo.exW hclosed).2 ha2⟩

/-! ### Claim C10 -/

/-- Claim C10: the list produced by topologicalSort contains exactly those
processors from which some sink processor of the network is reachable by
following connections downstream, each exactly once; in particular a
processor that is not upstream of any sink never appears. -/
theorem topologicalSort_exactly_upstream_of_sinks (net : Topo.Network)
    (hclosed : Topo.Closed net) :
    (Topo.topologicalSort net).Nodup ∧
    ∀ p, p ∈ Topo.topologicalSort net ↔
      ∃ s, s ∈ net.processors ∧ s ∈ net.sinks ∧
        Topo.ReachDown net Topo.allConnections p s :=
  Topo.topoSortWith_mem net Topo.allConnections hclosed

/-- Witness for C10 at the concrete chain exW. -/
theorem topologicalSort_exactly_upstream_of_sinks_witness :
    Topo.Closed Topo.exW ∧
    ((Topo.topologicalSort Topo.exW).Nodup ∧
      ∀ p, p ∈ Topo.topologicalSort Topo.exW ↔
        ∃ s, s ∈ Topo.exW.processors ∧ s ∈ Topo.exW.sinks ∧
          Topo.ReachDown Topo.exW Topo.allConnections p s) := by
  have hclosed : Topo.Closed Topo.exW := by unfold Topo.Closed; decide
  exact ⟨hclosed, topologicalSort_exactly_upstream_of_sinks Topo.exW hclosed⟩
